import Mathlib

/-!
Verification of the parnas representative-selection program.

The tree model, distance oracle, objective and solver follow §3–§4 of the
design document; the cover-mode loop and the coloring pass follow
`parnas.py`.  Costs and distances live in `WithTop ℚ` so that the absent
prior-center baseline (`+infinity`) is representable exactly.
-/

namespace Parnas

/-- Extended nonnegative-rational costs/distances; `⊤` models `+infinity`. -/
abbrev QInf := WithTop ℚ

/-- Binarized phylogenetic tree (§3 Node/Tree): a leaf carries a taxon label;
an internal node owns two children, each with the length of its incoming
edge (the solver operates on the binarized tree, where every internal node
has exactly two children). -/
inductive PTree where
  | leaf (label : String)
  | node (l : PTree) (el : ℚ) (r : PTree) (er : ℚ)

/-- Leaf labels of the tree, left to right. -/
def leaves : PTree → List String
  | .leaf s => [s]
  | .node l _ r _ => leaves l ++ leaves r

/-- Distance from the root of `t` to the leaf labeled `x` (sum of edge
lengths), `none` when no such leaf exists. -/
def depthOf (x : String) : PTree → Option ℚ
  | .leaf s => if x = s then some 0 else none
  | .node l el r er =>
      match depthOf x l with
      | some d => some (d + el)
      | none => (depthOf x r).map (fun d => d + er)

/-- DistanceOracle `distance(u, v)` (§4.2): sum of edge lengths on the unique
path between the leaves labeled `x` and `y`; computed by locating their
lowest common ancestor recursively. `none` when either leaf is missing. -/
def pairDist (x y : String) : PTree → Option ℚ
  | .leaf s => if x = s ∧ y = s then some 0 else none
  | .node l el r er =>
      match pairDist x y l, pairDist x y r with
      | some d, _ => some d
      | none, some d => some d
      | none, none =>
          match depthOf x (.node l el r er), depthOf y (.node l el r er) with
          | some dx, some dy => some (dx + dy)
          | _, _ => none

/-- Solver configuration (§3): the optional resolution radius, the prior
centers, and the two exclusion label sets that induce the taxon
classification (`excluded` = ExcludedCounted, `fullyExcluded` = FullyExcluded). -/
structure Config where
  radius : Option ℚ := none
  priors : List String := []
  excluded : List String := []
  fullyExcluded : List String := []

/-- Selectable leaves (§4.3): leaves in neither exclusion set; only these are
candidates for selection. -/
def selectable (t : PTree) (cfg : Config) : List String :=
  (leaves t).filter fun l => !(cfg.excluded.contains l) && !(cfg.fullyExcluded.contains l)

/-- Counted leaves (§4.3/§4.4): leaves that contribute to the objective,
i.e. every leaf that is not FullyExcluded. -/
def counted (t : PTree) (cfg : Config) : List String :=
  (leaves t).filter fun l => !(cfg.fullyExcluded.contains l)

/-- Effective distance of leaf `l` to its nearest point among the candidate
labels `cands` (selected representatives together with prior centers):
`min` over the pairwise distances, `⊤` when there is none (§4.2
`baselineDistance` generalized to any candidate list). -/
def effDist (t : PTree) (cands : List String) (l : String) : QInf :=
  (cands.filterMap fun s => pairDist l s t).minimum

/-- Threshold function `coverage(x, radius)` (§4.2): with a radius set,
a distance not exceeding it is fully covered and costs 0 (equality counts
as covered); otherwise the full distance is charged. -/
def coverageInf (radius : Option ℚ) (x : QInf) : QInf :=
  match radius with
  | none => x
  | some r => if x ≤ (r : QInf) then 0 else x

/-- Cost contributed by one leaf under representative set `S` (§4.4):
`coverage` of the minimum of its distance to `S` and its prior-center
baseline. -/
def leafContribution (t : PTree) (cfg : Config) (S : List String) (l : String) : QInf :=
  coverageInf cfg.radius (effDist t (S ++ cfg.priors) l)

/-- The objective `cost(S)` (§4.4): sum of the coverage-thresholded effective
distances over every counted (non-FullyExcluded) leaf. -/
def totalCost (t : PTree) (cfg : Config) (S : List String) : QInf :=
  ((counted t cfg).map (leafContribution t cfg S)).sum

/-- Modelled from the spec: `find_n_medoids` of `parnaslib.medoids` is not in
the sources; §4.4 specifies it as an exact solver returning a size-`n`
subset of the Selectable leaves minimizing `cost(S)`, together with that
optimal cost, ties resolved arbitrarily.  We model it as the first
minimizer in the enumeration of all size-`n` sublists of the selectable
leaves.  This variant covers only the in-range domain
`n ≤ #selectable` (returning the placeholder `([], ⊤)` out of range);
`find_n_medoids_checked` below additionally models §4.4's
`InvalidConfiguration` failure for `n` past the number of selectable
leaves. -/
def find_n_medoids (t : PTree) (n : Nat) (cfg : Config) : List String × QInf :=
  match (List.sublistsLen n (selectable t cfg)).argmin (totalCost t cfg) with
  | some S => (S, totalCost t cfg S)
  | none => ([], ⊤)

/-- Failure raised by the solver (§4.4/§7): `InvalidConfiguration` when `n`
exceeds the number of Selectable leaves. -/
inductive SolverErr where
  | invalidConfiguration
deriving DecidableEq

/-- Modelled from the spec: `find_n_medoids` with §4.4's failure condition
for `n` exceeding the number of Selectable leaves, which the spec mandates
to raise `InvalidConfiguration` (the spec's other failure conditions —
negative radius, unknown labels, overlapping exclusion sets, degenerate
trees — concern inputs rejected by `parse_and_validate` before the solver
runs, and are outside this model).  There is no size-`n` sublist exactly
when `n` exceeds the number of selectable leaves. -/
def find_n_medoids_checked (t : PTree) (n : Nat) (cfg : Config) :
    Except SolverErr (List String × QInf) :=
  match (List.sublistsLen n (selectable t cfg)).argmin (totalCost t cfg) with
  | some S => .ok (S, totalCost t cfg S)
  | none => .error .invalidConfiguration

/-- Test tree `(((a:2,b:1):2,e:1):1,(c:1,d:2):1)`. -/
def tree1 : PTree :=
  .node (.node (.node (.leaf "a") 2 (.leaf "b") 1) 2 (.leaf "e") 1) 1
        (.node (.leaf "c") 1 (.leaf "d") 2) 1

/-- Test tree `((a:1,(b:2.5,c:2.5):1):3,(d:0.5,(e:2.5,f:3):1):2)`. -/
def tree2 : PTree :=
  .node (.node (.leaf "a") 1 (.node (.leaf "b") (5/2) (.leaf "c") (5/2)) 1) 3
        (.node (.leaf "d") (1/2) (.node (.leaf "e") (5/2) (.leaf "f") 3) 1) 2

/-- Test tree `((a:1,(b:2.5,c:2.5):1):3,(d:0.5,(e:2.5,f:3.5):1):2)`. -/
def tree3 : PTree :=
  .node (.node (.leaf "a") 1 (.node (.leaf "b") (5/2) (.leaf "c") (5/2)) 1) 3
        (.node (.leaf "d") (1/2) (.node (.leaf "e") (5/2) (.leaf "f") (7/2)) 1) 2

/-- Configuration with radius 4.5 and nothing else, as in the fourth test. -/
def cfgR45 : Config := { radius := some (9/2) }

/-- Configuration with prior centers `{b}`, as in the fifth test. -/
def cfgPriorB : Config := { priors := ["b"] }

/-- Python's `range(lo, lo + len)`: the list `[lo, lo+1, ..., lo+len-1]`. -/
def upRange (lo : Nat) : Nat → List Nat
  | 0 => []
  | len + 1 => lo :: upRange (lo + 1) len

/-- One pass of the `args.cover` loop of `parnas.py` over the remaining
values of `n`: solve for each `n` in turn, remembering the latest
`(representatives, value)` pair; stop with `opt_n = n` at the first `n`
whose value is 0, otherwise leave `opt_n = -1` and keep the result of the
final iteration. -/
def coverLoop (t : PTree) (cfg : Config) :
    List Nat → Option (List String × QInf) → Int × Option (List String × QInf)
  | [], last => (-1, last)
  | n :: rest, _ =>
      let r := find_n_medoids t n cfg
      if r.2 = 0 then ((n : Int), some r) else coverLoop t cfg rest (some r)

/-- The `args.cover` branch of `parnas.py`: run the loop for
`n in range(1, len(leaf_nodes) + 1)` starting with `opt_n = -1` and no
result yet. -/
def coverRun (t : PTree) (cfg : Config) : Int × Option (List String × QInf) :=
  coverLoop t cfg (upRange 1 (leaves t).length) none

/-- The `args.cover` loop over the checked solver: identical to `coverLoop`,
except that an `InvalidConfiguration` raised by `find_n_medoids` propagates
(there is no `try` around the call in `parnas.py`, so the exception aborts
the loop and the program). -/
def coverLoopChecked (t : PTree) (cfg : Config) :
    List Nat → Option (List String × QInf) →
    Except SolverErr (Int × Option (List String × QInf))
  | [], last => .ok (-1, last)
  | n :: rest, _ =>
      match find_n_medoids_checked t n cfg with
      | .error err => .error err
      | .ok r =>
          if r.2 = 0 then .ok ((n : Int), some r)
          else coverLoopChecked t cfg rest (some r)

/-- The `args.cover` branch over the checked solver: `.ok` is normal
termination of the loop, `.error` an uncaught `InvalidConfiguration`. -/
def coverRunChecked (t : PTree) (cfg : Config) :
    Except SolverErr (Int × Option (List String × QInf)) :=
  coverLoopChecked t cfg (upRange 1 (leaves t).length) none

/-- A dendropy node as seen by `color_by_clusters`: its optional integer
`center` annotation. -/
structure ENode where
  center : Option Int

/-- A dendropy edge: optional head and tail nodes. -/
structure DEdge where
  head : Option ENode
  tail : Option ENode

/-- Runtime faults `color_by_clusters` can raise: a palette access out of
bounds (`IndexError`), use of the unbound `prior_color` (`NameError`), and
`get_taxon` returning `None` (`AttributeError` at the following use). -/
inductive ColorErr where
  | indexError
  | unboundPrior
  | attributeError
deriving DecidableEq

/-- The reserved prior-center color: bound to the first palette entry only
when prior centers exist (`prior_color` in the source). -/
def priorColorOf (allColors : List String) (priors : List String) : Option String :=
  if priors.isEmpty then none else allColors.head?

/-- The cluster palette actually indexed by center indices (`hex_colors`
after the source drops the reserved first color when prior centers exist). -/
def clusterColorsOf (allColors : List String) (priors : List String) : List String :=
  if priors.isEmpty then allColors else allColors.tail

/-- One iteration of the edge loop of `color_by_clusters` (parnas.py:36-47):
the `!color` annotation decision for one edge.  A color is assigned only
when both endpoints exist and carry the same non-`None` `center`
annotation; a negative shared value uses the reserved prior color (a
`NameError` if it was never bound), a nonnegative one indexes the cluster
palette (an `IndexError` when out of bounds). -/
def edgeColorStep (pc : Option String) (hx : List String) (e : DEdge) :
    Except ColorErr (Option String) :=
  match e.head, e.tail with
  | some h, some t =>
      match h.center with
      | none => .ok none
      | some ch =>
          if t.center = some ch then
            if ch < 0 then
              match pc with
              | some c => .ok (some c)
              | none => .error .unboundPrior
            else
              match hx[ch.toNat]? with
              | some c => .ok (some c)
              | none => .error .indexError
          else .ok none
  | _, _ => .ok none

/-- The whole edge loop: process every edge in order, stopping at the first
fault; on success, the list of per-edge `!color` decisions. -/
def colorEdgeList (pc : Option String) (hx : List String) :
    List DEdge → Except ColorErr (List (Option String))
  | [] => .ok []
  | e :: rest =>
      match edgeColorStep pc hx e with
      | .error err => .error err
      | .ok c =>
          match colorEdgeList pc hx rest with
          | .error err => .error err
          | .ok cs => .ok (c :: cs)

/-- The edge-coloring half of `color_by_clusters`, with the palette
construction of parnas.py:26-33 abstracted to the list `allColors` of the
generated colors: reserve the first color for prior centers when they
exist, then run the edge loop. -/
def color_by_clusters_edges (allColors priors : List String)
    (es : List DEdge) : Except ColorErr (List (Option String)) :=
  colorEdgeList (priorColorOf allColors priors)
    (clusterColorsOf allColors priors) es

/-- Per-taxon annotation state: the taxon namespace in order, each taxon's
label paired with the list of its current `!color` annotation values. -/
abbrev AnnState := List (String × List String)

/-- The black used for regular (non-representative) taxa. -/
def blackHex : String := "#000000"

/-- The `special_taxa` set of parnas.py:51-54: the centers, together with the prior
centers when any exist. -/
def specialTaxa (centers priors : List String) : List String :=
  if priors.isEmpty then centers else centers ++ priors

/-- The loop of parnas.py:55-58: for every taxon drop any previous `!color`
annotation and color non-special taxa black. -/
def blackPass (special : List String) (s : AnnState) : AnnState :=
  s.map fun p => (p.1, if p.1 ∈ special then ([] : List String) else [blackHex])

/-- Model of `get_taxon(x).annotations.add_new('!color', c)`:
append the value `c` to the first taxon labeled `x`. -/
def addColorFirst : AnnState → String → String → AnnState
  | [], _, _ => []
  | p :: rest, x, c =>
      if p.1 = x then (p.1, p.2 ++ [c]) :: rest
      else p :: addColorFirst rest x c

/-- The `!color` annotation values of the first taxon labeled `x`
(`none` when `get_taxon` would return `None`). -/
def annOf : AnnState → String → Option (List String)
  | [], _ => none
  | p :: rest, x => if p.1 = x then some p.2 else annOf rest x

/-- The loop of parnas.py:61-64: give each `centers[i]` the `i`-th cluster
color; an out-of-range palette access is an `IndexError`, a missing taxon an
`AttributeError` at the subsequent attribute use. -/
def centersPassAux (hx : List String) : Nat → List String → AnnState →
    Except ColorErr AnnState
  | _, [], s => .ok s
  | i, c :: rest, s =>
      match hx[i]? with
      | none => .error .indexError
      | some col =>
          match annOf s c with
          | none => .error .attributeError
          | some _ => centersPassAux hx (i + 1) rest (addColorFirst s c col)

/-- The loop of parnas.py:67-70: give every prior center the reserved prior
color (`NameError` if `prior_color` was never bound). -/
def priorsPassAux (pc : Option String) : List String → AnnState →
    Except ColorErr AnnState
  | [], s => .ok s
  | p :: rest, s =>
      match pc with
      | none => .error .unboundPrior
      | some col =>
          match annOf s p with
          | none => .error .attributeError
          | some _ => priorsPassAux pc rest (addColorFirst s p col)

/-- The taxon-coloring half of `color_by_clusters` (parnas.py:49-70), with
the generated palette abstracted to `allColors` exactly as in the edge
half: black out the non-special taxa, color each center with its cluster
color, then color the prior centers (if any) with the reserved color. -/
def color_by_clusters_taxa (allColors centers priors : List String)
    (s : AnnState) : Except ColorErr AnnState :=
  let s1 := blackPass (specialTaxa centers priors) s
  match centersPassAux (clusterColorsOf allColors priors) 0 centers s1 with
  | .error err => .error err
  | .ok s2 =>
      if priors.isEmpty then .ok s2
      else priorsPassAux (priorColorOf allColors priors) priors s2


/-- C1: for the tree `(((a:2,b:1):2,e:1):1,(c:1,d:2):1)` with `n = 1`, no
radius, no prior centers and no exclusions, `find_n_medoids` returns exactly
the single representative `e` with total objective cost 18; moreover 18 is
the minimal cost over all size-1 candidate sets and `e` is its unique
minimizer, so any tie-break returns `e`. -/
theorem c1_one_medoid :
    find_n_medoids tree1 1 {} = (["e"], ((18 : ℚ) : QInf)) ∧
    ∀ S ∈ List.sublistsLen 1 (selectable tree1 {}),
      ((18 : ℚ) : QInf) ≤ totalCost tree1 {} S ∧
      (totalCost tree1 {} S = ((18 : ℚ) : QInf) → S = ["e"]) := by
  with_unfolding_all decide

/-- C2: for the tree `((a:1,(b:2.5,c:2.5):1):3,(d:0.5,(e:2.5,f:3.5):1):2)`
with `n = 2` and radius 4.5, `find_n_medoids` returns `{a, d}` with cost 5;
leaves `b` and `c` are at distance exactly 4.5 from their nearest
representative `a` and contribute 0 (distance equal to the radius counts as
covered), and only `f` contributes, with its full distance 5.  The optimum
is unique, so any tie-break returns `{a, d}`. -/
theorem c2_two_medoids_radius_boundary :
    find_n_medoids tree3 2 cfgR45 = (["a", "d"], ((5 : ℚ) : QInf)) ∧
    pairDist "b" "a" tree3 = some (9/2) ∧ pairDist "c" "a" tree3 = some (9/2) ∧
    effDist tree3 ["a", "d"] "b" = ((9/2 : ℚ) : QInf) ∧
    effDist tree3 ["a", "d"] "c" = ((9/2 : ℚ) : QInf) ∧
    leafContribution tree3 cfgR45 ["a", "d"] "b" = 0 ∧
    leafContribution tree3 cfgR45 ["a", "d"] "c" = 0 ∧
    effDist tree3 ["a", "d"] "f" = ((5 : ℚ) : QInf) ∧
    leafContribution tree3 cfgR45 ["a", "d"] "f" = ((5 : ℚ) : QInf) ∧
    (∀ l ∈ leaves tree3, l ≠ "f" → leafContribution tree3 cfgR45 ["a", "d"] l = 0) ∧
    (∀ S ∈ List.sublistsLen 2 (selectable tree3 cfgR45),
      ((5 : ℚ) : QInf) ≤ totalCost tree3 cfgR45 S ∧
      (totalCost tree3 cfgR45 S = ((5 : ℚ) : QInf) → S = ["a", "d"])) := by
  with_unfolding_all decide

/-- C3: for the tree `((a:1,(b:2.5,c:2.5):1):3,(d:0.5,(e:2.5,f:3):1):2)` with
`n = 2`, no radius, no prior centers and no exclusions, `find_n_medoids`
returns the representative set `{a, d}` with total cost 17.5; the optimum is
unique, so any tie-break returns `{a, d}`. -/
theorem c3_two_medoids :
    find_n_medoids tree2 2 {} = (["a", "d"], ((35/2 : ℚ) : QInf)) ∧
    ∀ S ∈ List.sublistsLen 2 (selectable tree2 {}),
      ((35/2 : ℚ) : QInf) ≤ totalCost tree2 {} S ∧
      (totalCost tree2 {} S = ((35/2 : ℚ) : QInf) → S = ["a", "d"]) := by
  with_unfolding_all decide

/-- C4: for the tree `(((a:2,b:1):2,e:1):1,(c:1,d:2):1)` with prior centers
`{b}` and `n = 1`, the returned representative is `c` or `d`; both achieve
the same minimal total cost (which is the value the solver reports), these
are the only optima, and the tie is not an error — the solver still returns
an optimal answer. -/
theorem c4_prior_center_tie :
    ((find_n_medoids tree1 1 cfgPriorB).1 = ["c"] ∨
      (find_n_medoids tree1 1 cfgPriorB).1 = ["d"]) ∧
    totalCost tree1 cfgPriorB ["c"] = totalCost tree1 cfgPriorB ["d"] ∧
    (find_n_medoids tree1 1 cfgPriorB).2 = totalCost tree1 cfgPriorB ["c"] ∧
    (∀ S ∈ List.sublistsLen 1 (selectable tree1 cfgPriorB),
      totalCost tree1 cfgPriorB ["c"] ≤ totalCost tree1 cfgPriorB S ∧
      (totalCost tree1 cfgPriorB S = totalCost tree1 cfgPriorB ["c"] →
        S = ["c"] ∨ S = ["d"])) := by
  with_unfolding_all decide

/-! ### Monotonicity of the optimal cost in `n` -/

/-- The minimum over a longer list is at most the minimum over a sublist. -/
lemma minimum_le_of_sublist {l₁ l₂ : List ℚ} (h : l₁.Sublist l₂) :
    l₂.minimum ≤ l₁.minimum := by
  apply List.le_minimum_of_forall_le
  intro a ha
  exact List.minimum_le_of_mem' (h.subset ha)

/-- Growing the candidate set can only shrink a leaf's effective distance. -/
lemma effDist_anti (t : PTree) {c₁ c₂ : List String} (h : c₁.Sublist c₂)
    (l : String) : effDist t c₂ l ≤ effDist t c₁ l :=
  minimum_le_of_sublist (h.filterMap fun s => pairDist l s t)

/-- The coverage threshold is monotone when the radius is nonnegative (or
absent). -/
lemma coverageInf_mono {radius : Option ℚ} (hr : ∀ r ∈ radius, 0 ≤ r)
    {x y : QInf} (hxy : x ≤ y) : coverageInf radius x ≤ coverageInf radius y := by
  cases radius with
  | none => exact hxy
  | some r =>
    have hr0 : (0 : QInf) ≤ (r : QInf) := by exact_mod_cast hr r rfl
    simp only [coverageInf]
    by_cases hx : x ≤ (r : QInf) <;> by_cases hy : y ≤ (r : QInf) <;>
      simp [hx, hy]
    · exact le_trans hr0 (le_of_not_le hy)
    · exact absurd (le_trans hxy hy) hx
    · exact hxy

/-- Adding representatives can only shrink the objective. -/
lemma totalCost_anti (t : PTree) (cfg : Config) (hr : ∀ r ∈ cfg.radius, 0 ≤ r)
    {S₁ S₂ : List String} (h : S₁.Sublist S₂) :
    totalCost t cfg S₂ ≤ totalCost t cfg S₁ := by
  apply List.sum_le_sum
  intro l _
  exact coverageInf_mono hr (effDist_anti t (h.append_right cfg.priors) l)

/-- A strict sublist extends to a one-larger sublist of the same list. -/
lemma sublist_extend {α : Type} {S l : List α} (hs : S.Sublist l)
    (hlt : S.length < l.length) :
    ∃ S', S.Sublist S' ∧ S'.Sublist l ∧ S'.length = S.length + 1 := by
  induction hs with
  | slnil => exact absurd hlt (lt_irrefl 0)
  | @cons S l₂ a h ih =>
      rcases lt_or_eq_of_le (h.length_le) with hlt₂ | heq
      · obtain ⟨S', h₁, h₂, h₃⟩ := ih hlt₂
        exact ⟨S', h₁, h₂.cons a, h₃⟩
      · refine ⟨a :: l₂, ?_, List.Sublist.refl _, ?_⟩
        · rw [h.eq_of_length heq]
          exact List.sublist_cons_self a l₂
        · simp [heq]
  | @cons₂ S₁ l₂ a h ih =>
      have hlt₂ : S₁.length < l₂.length := by
        simpa using hlt
      obtain ⟨S', h₁, h₂, h₃⟩ := ih hlt₂
      exact ⟨a :: S', h₁.cons₂ a, h₂.cons₂ a, by simp [h₃]⟩

/-- With `n` at most the number of selectable leaves, the solver's reported
value is the cost of some size-`n` sublist of the selectable leaves, minimal
among all of them. -/
lemma find_n_medoids_spec (t : PTree) (cfg : Config) {n : ℕ}
    (hn : n ≤ (selectable t cfg).length) :
    ∃ S, S.Sublist (selectable t cfg) ∧ S.length = n ∧
      (find_n_medoids t n cfg).2 = totalCost t cfg S ∧
      ∀ T, T.Sublist (selectable t cfg) → T.length = n →
        totalCost t cfg S ≤ totalCost t cfg T := by
  have hne : List.sublistsLen n (selectable t cfg) ≠ [] := by
    intro hnil
    have hlen := List.length_sublistsLen n (selectable t cfg)
    rw [hnil] at hlen
    have hpos := Nat.choose_pos hn
    simp only [List.length_nil] at hlen
    omega
  obtain ⟨S, hS⟩ : ∃ S, (List.sublistsLen n (selectable t cfg)).argmin
      (totalCost t cfg) = some S := by
    cases harg : (List.sublistsLen n (selectable t cfg)).argmin (totalCost t cfg) with
    | none => exact absurd (List.argmin_eq_none.mp harg) hne
    | some S => exact ⟨S, rfl⟩
  have hmem : S ∈ List.sublistsLen n (selectable t cfg) := List.argmin_mem hS
  obtain ⟨hsub, hlen⟩ := List.mem_sublistsLen.mp hmem
  refine ⟨S, hsub, hlen, ?_, ?_⟩
  · simp [find_n_medoids, hS]
  · intro T hTsub hTlen
    exact List.le_of_mem_argmin (List.mem_sublistsLen.mpr ⟨hTsub, hTlen⟩) hS

/-- The reported optimal value only improves when one more representative is
allowed. -/
lemma find_n_medoids_step (t : PTree) (cfg : Config)
    (hr : ∀ r ∈ cfg.radius, 0 ≤ r) {n : ℕ}
    (hn : n + 1 ≤ (selectable t cfg).length) :
    (find_n_medoids t (n + 1) cfg).2 ≤ (find_n_medoids t n cfg).2 := by
  obtain ⟨S, hSsub, hSlen, hSval, _⟩ :=
    find_n_medoids_spec t cfg (Nat.le_of_succ_le hn)
  obtain ⟨S', hS'sub, hS'len, hS'val, hS'min⟩ := find_n_medoids_spec t cfg hn
  obtain ⟨T, hT₁, hT₂, hT₃⟩ := sublist_extend hSsub (by omega)
  rw [hSval, hS'val]
  calc totalCost t cfg S' ≤ totalCost t cfg T := hS'min T hT₂ (by omega)
    _ ≤ totalCost t cfg S := totalCost_anti t cfg hr hT₁

/-- C5: for every fixed tree, radius (nonnegative when present), prior-center
set and taxon classification, the optimal cost reported by the solver is
non-increasing in `n`: if `n ≤ n'` and both are at most the number of
selectable leaves, the cost reported for `n'` is at most the cost reported
for `n`. -/
theorem c5_cost_monotone_in_n (t : PTree) (cfg : Config)
    (hr : ∀ r ∈ cfg.radius, 0 ≤ r) (n n' : ℕ) (hnn : n ≤ n')
    (hn' : n' ≤ (selectable t cfg).length) :
    (find_n_medoids t n' cfg).2 ≤ (find_n_medoids t n cfg).2 := by
  obtain ⟨k, rfl⟩ := Nat.exists_eq_add_of_le hnn
  clear hnn
  induction k with
  | zero => exact le_of_eq rfl
  | succ k ih =>
      have hk : n + k + 1 ≤ (selectable t cfg).length := by omega
      calc (find_n_medoids t (n + (k + 1)) cfg).2
          = (find_n_medoids t ((n + k) + 1) cfg).2 := by ring_nf
        _ ≤ (find_n_medoids t (n + k) cfg).2 := find_n_medoids_step t cfg hr hk
        _ ≤ (find_n_medoids t n cfg).2 := ih (by omega)

/-- Witness for C5 at a concrete input: allowing two representatives on the
first test tree costs no more than allowing one. -/
theorem c5_cost_monotone_in_n_witness :
    (find_n_medoids tree1 2 {}).2 ≤ (find_n_medoids tree1 1 {}).2 :=
  c5_cost_monotone_in_n tree1 {} (by intro r hrr; exact absurd hrr (by simp))
    1 2 (by decide) (by with_unfolding_all decide)

/-! ### The cover-mode loop of `parnas.py` -/

lemma mem_upRange {m : Nat} : ∀ {len lo : Nat}, m ∈ upRange lo len ↔
    lo ≤ m ∧ m < lo + len := by
  intro len
  induction len with
  | zero => intro lo; simp [upRange]
  | succ k ih =>
      intro lo
      simp only [upRange, List.mem_cons, ih]
      omega

/-- If the loop stops with a nonnegative `opt_n`, that `opt_n` is the first
tried value whose solver cost is 0, and the recorded result is the solver
output there. -/
lemma coverLoop_found (t : PTree) (cfg : Config) :
    ∀ (len lo : Nat) (last : Option (List String × QInf)) (k : Int)
      (res : Option (List String × QInf)),
      coverLoop t cfg (upRange lo len) last = (k, res) → 0 ≤ k →
      ∃ n : Nat, k = (n : Int) ∧ lo ≤ n ∧ n < lo + len ∧
        (find_n_medoids t n cfg).2 = 0 ∧
        (∀ m : Nat, lo ≤ m → m < n → (find_n_medoids t m cfg).2 ≠ 0) ∧
        res = some (find_n_medoids t n cfg) := by
  intro len
  induction len with
  | zero =>
      intro lo last k res hrun hk
      simp only [upRange, coverLoop] at hrun
      cases hrun
      exact absurd hk (by decide)
  | succ len ih =>
      intro lo last k res hrun hk
      simp only [upRange, coverLoop] at hrun
      by_cases h0 : (find_n_medoids t lo cfg).2 = 0
      · rw [if_pos h0] at hrun
        cases hrun
        refine ⟨lo, rfl, le_refl lo, by omega, h0, ?_, rfl⟩
        intro m hm₁ hm₂
        omega
      · rw [if_neg h0] at hrun
        obtain ⟨n, hn₁, hn₂, hn₃, hn₄, hn₅, hn₆⟩ :=
          ih (lo + 1) (some (find_n_medoids t lo cfg)) k res hrun hk
        refine ⟨n, hn₁, by omega, by omega, hn₄, ?_, hn₆⟩
        intro m hm₁ hm₂
        rcases Nat.eq_or_lt_of_le hm₁ with heq | hlt
        · rw [← heq]; exact h0
        · exact hn₅ m hlt hm₂

/-- If no tried value has solver cost 0, the loop finishes with `opt_n = -1`
and the result of its last iteration. -/
lemma coverLoop_exhaust (t : PTree) (cfg : Config) :
    ∀ (len lo : Nat) (last : Option (List String × QInf)),
      (∀ m : Nat, lo ≤ m → m ≤ lo + len → (find_n_medoids t m cfg).2 ≠ 0) →
      coverLoop t cfg (upRange lo (len + 1)) last =
        (-1, some (find_n_medoids t (lo + len) cfg)) := by
  intro len
  induction len with
  | zero =>
      intro lo last hall
      show coverLoop t cfg (lo :: upRange (lo + 1) 0) last = _
      simp only [coverLoop]
      rw [if_neg (hall lo (le_refl lo) (by omega))]
      rfl
  | succ len ih =>
      intro lo last hall
      have hstep : coverLoop t cfg (upRange lo (len + 1 + 1)) last =
          coverLoop t cfg (upRange (lo + 1) (len + 1))
            (some (find_n_medoids t lo cfg)) := by
        show coverLoop t cfg (lo :: upRange (lo + 1) (len + 1)) last = _
        simp only [coverLoop]
        rw [if_neg (hall lo (le_refl lo) (by omega))]
      rw [hstep, ih (lo + 1) (some (find_n_medoids t lo cfg))
        (fun m hm₁ hm₂ => hall m (by omega) (by omega))]
      have harith : lo + 1 + len = lo + (len + 1) := by omega
      rw [harith]

/-- C6: in cover mode the program solves for `n = 1, 2, ...` up to the leaf
count; if it stops with a nonnegative `opt_n`, that `opt_n` is the first
`n` whose returned cost is exactly 0, the reported representatives are the
solver output at that `n`, and `opt_n` is the least positive representative
count achieving full radius-bounded coverage (cost 0). -/
theorem c6_cover_loop_finds_least_n (t : PTree) (cfg : Config) (k : Int)
    (res : Option (List String × QInf)) (hrun : coverRun t cfg = (k, res))
    (hk : 0 ≤ k) :
    ∃ n : Nat, k = (n : Int) ∧ 1 ≤ n ∧ n ≤ (leaves t).length ∧
      (find_n_medoids t n cfg).2 = 0 ∧
      (∀ m : Nat, 1 ≤ m → m < n → (find_n_medoids t m cfg).2 ≠ 0) ∧
      res = some (find_n_medoids t n cfg) ∧
      (∀ m : Nat, 1 ≤ m → (find_n_medoids t m cfg).2 = 0 → n ≤ m) := by
  obtain ⟨n, h₁, h₂, h₃, h₄, h₅, h₆⟩ :=
    coverLoop_found t cfg (leaves t).length 1 none k res hrun hk
  refine ⟨n, h₁, h₂, by omega, h₄, h₅, h₆, ?_⟩
  intro m hm hm0
  by_contra hcon
  exact h₅ m hm (by omega) hm0

/-- Witness for C6: on the first test tree with radius 100 the loop stops at
`n = 1` with cost 0, and 1 is the least such count. -/
theorem c6_cover_loop_finds_least_n_witness :
    ∃ n : Nat, (1 : Int) = (n : Int) ∧ 1 ≤ n ∧ n ≤ (leaves tree1).length ∧
      (find_n_medoids tree1 n { radius := some 100 }).2 = 0 ∧
      (∀ m : Nat, 1 ≤ m → m < n →
        (find_n_medoids tree1 m { radius := some 100 }).2 ≠ 0) ∧
      (some (find_n_medoids tree1 1 { radius := some 100 }) : Option (List String × QInf)) =
        some (find_n_medoids tree1 n { radius := some 100 }) ∧
      (∀ m : Nat, 1 ≤ m →
        (find_n_medoids tree1 m { radius := some 100 }).2 = 0 → n ≤ m) :=
  c6_cover_loop_finds_least_n tree1 { radius := some 100 } 1
    (some (find_n_medoids tree1 1 { radius := some 100 }))
    (by with_unfolding_all decide) (by decide)

/-- The checked solver agrees with the unchecked model while `n` stays
within the number of selectable leaves. -/
lemma find_n_medoids_checked_ok (t : PTree) (cfg : Config) {n : ℕ}
    (hn : n ≤ (selectable t cfg).length) :
    find_n_medoids_checked t n cfg = .ok (find_n_medoids t n cfg) := by
  unfold find_n_medoids_checked find_n_medoids
  cases harg : (List.sublistsLen n (selectable t cfg)).argmin (totalCost t cfg) with
  | some S => rfl
  | none =>
      exfalso
      have hnil := List.argmin_eq_none.mp harg
      have hlen := List.length_sublistsLen n (selectable t cfg)
      rw [hnil] at hlen
      have hpos := Nat.choose_pos hn
      simp only [List.length_nil] at hlen
      omega

/-- Past the number of selectable leaves the checked solver raises
`InvalidConfiguration`, as §4.4 mandates. -/
lemma find_n_medoids_checked_err (t : PTree) (cfg : Config) {n : ℕ}
    (hn : (selectable t cfg).length < n) :
    find_n_medoids_checked t n cfg = .error .invalidConfiguration := by
  unfold find_n_medoids_checked
  cases harg : (List.sublistsLen n (selectable t cfg)).argmin (totalCost t cfg) with
  | none => rfl
  | some S =>
      exfalso
      have hmem := List.argmin_mem harg
      obtain ⟨hsub, hlenS⟩ := List.mem_sublistsLen.mp hmem
      have := hsub.length_le
      omega

/-- While every tried `n` stays within the selectable count, the checked
loop terminates normally with the unchecked loop's answer. -/
lemma coverLoopChecked_ok_of_le (t : PTree) (cfg : Config) :
    ∀ (ns : List Nat) (last : Option (List String × QInf)),
      (∀ n ∈ ns, n ≤ (selectable t cfg).length) →
      coverLoopChecked t cfg ns last = .ok (coverLoop t cfg ns last) := by
  intro ns
  induction ns with
  | nil => intro last _; rfl
  | cons n rest ih =>
      intro last hle
      have hn := hle n (List.mem_cons_self n rest)
      simp only [coverLoopChecked, coverLoop, find_n_medoids_checked_ok t cfg hn]
      by_cases h0 : (find_n_medoids t n cfg).2 = 0
      · rw [if_pos h0, if_pos h0]
      · rw [if_neg h0, if_neg h0]
        exact ih (some (find_n_medoids t n cfg))
          fun m hm => hle m (List.mem_cons_of_mem n hm)

/-- If every answered `n` has nonzero cost and the tried range passes the
selectable count, the checked loop aborts with `InvalidConfiguration` at
`n = #selectable + 1`. -/
lemma coverLoopChecked_raises (t : PTree) (cfg : Config) :
    ∀ (len lo : Nat) (last : Option (List String × QInf)),
      (∀ m, lo ≤ m → m ≤ (selectable t cfg).length →
        (find_n_medoids t m cfg).2 ≠ 0) →
      lo ≤ (selectable t cfg).length + 1 →
      (selectable t cfg).length + 1 < lo + len →
      coverLoopChecked t cfg (upRange lo len) last =
        .error .invalidConfiguration := by
  intro len
  induction len with
  | zero =>
      intro lo last _ hlo hin
      exfalso
      omega
  | succ len ih =>
      intro lo last hall hlo hin
      by_cases hcase : lo ≤ (selectable t cfg).length
      · show coverLoopChecked t cfg (lo :: upRange (lo + 1) len) last = _
        simp only [coverLoopChecked, find_n_medoids_checked_ok t cfg hcase]
        rw [if_neg (hall lo (le_refl lo) hcase)]
        exact ih (lo + 1) (some (find_n_medoids t lo cfg))
          (fun m hm₁ hm₂ => hall m (by omega) hm₂) (by omega) (by omega)
      · show coverLoopChecked t cfg (lo :: upRange (lo + 1) len) last = _
        simp only [coverLoopChecked,
          find_n_medoids_checked_err t cfg (show (selectable t cfg).length < lo by omega)]

/-- C8 (amended): in cover mode, if no `n` up to the number of selectable
leaves yields cost exactly 0, then: every attempted `n` is at least 1
(`n = 0` is never tried); when every leaf is selectable the loop terminates
without raising, `opt_n` remains `-1`, and the program proceeds with the
representatives computed in the final iteration (`n` = number of leaves);
but when some leaf is unselectable the loop does not terminate normally —
the solver's `InvalidConfiguration` for `n = #selectable + 1` propagates
(there is no `try` in `parnas.py`) and aborts the run. -/
theorem c8_cover_loop_exhausts_amended (t : PTree) (cfg : Config)
    (hL : 1 ≤ (leaves t).length)
    (hall : ∀ m ∈ upRange 1 (selectable t cfg).length,
      (find_n_medoids t m cfg).2 ≠ 0) :
    (∀ m ∈ upRange 1 (leaves t).length, 1 ≤ m) ∧
    ((selectable t cfg).length = (leaves t).length →
      coverRunChecked t cfg =
        .ok (-1, some (find_n_medoids t (leaves t).length cfg))) ∧
    ((selectable t cfg).length < (leaves t).length →
      coverRunChecked t cfg = .error .invalidConfiguration) := by
  refine ⟨fun m hm => (mem_upRange.mp hm).1, ?_, ?_⟩
  · intro heq
    have hok : coverRunChecked t cfg = .ok (coverRun t cfg) := by
      unfold coverRunChecked coverRun
      apply coverLoopChecked_ok_of_le
      intro n hn
      have hn' := mem_upRange.mp hn
      omega
    have hcr : coverRun t cfg =
        (-1, some (find_n_medoids t (leaves t).length cfg)) := by
      obtain ⟨len, hlen⟩ : ∃ len, (leaves t).length = len + 1 :=
        ⟨(leaves t).length - 1, by omega⟩
      have key := coverLoop_exhaust t cfg len 1 none ?_
      · unfold coverRun
        rw [hlen, key]
        have h12 : 1 + len = len + 1 := by omega
        rw [h12, ← hlen]
      · intro m hm₁ hm₂
        apply hall m
        apply mem_upRange.mpr
        refine ⟨hm₁, ?_⟩
        omega
    rw [hok, hcr]
  · intro hlt
    unfold coverRunChecked
    apply coverLoopChecked_raises
    · intro m hm₁ hm₂
      exact hall m (mem_upRange.mpr ⟨hm₁, by omega⟩)
    · omega
    · omega

/-- Witness for C8 (amended): on the first test tree with leaf `a` excluded
from selection (4 selectable leaves, 5 leaves) and no radius, no answered
`n` reaches cost 0, and the checked loop aborts with
`InvalidConfiguration`. -/
theorem c8_cover_loop_exhausts_amended_witness :
    (∀ m ∈ upRange 1 (leaves tree1).length, 1 ≤ m) ∧
    ((selectable tree1 { excluded := ["a"] }).length = (leaves tree1).length →
      coverRunChecked tree1 { excluded := ["a"] } =
        .ok (-1, some (find_n_medoids tree1 (leaves tree1).length
          { excluded := ["a"] }))) ∧
    ((selectable tree1 { excluded := ["a"] }).length < (leaves tree1).length →
      coverRunChecked tree1 { excluded := ["a"] } =
        .error .invalidConfiguration) :=
  c8_cover_loop_exhausts_amended tree1 { excluded := ["a"] }
    (by with_unfolding_all decide) (by with_unfolding_all decide)

/-- C8 counterexample: on the first test tree with leaf `a` excluded from
selection, no `n` between 1 and the number of leaves yields cost exactly 0
(the four answered values are nonzero and `n = 5` raises instead of
yielding a cost), yet the cover loop does not terminate normally with
`opt_n = -1` and a final-iteration result: it aborts with
`InvalidConfiguration`. -/
theorem c8_cover_loop_exhausts_counterexample :
    (∀ m ∈ upRange 1 (selectable tree1 { excluded := ["a"] }).length,
      (find_n_medoids tree1 m { excluded := ["a"] }).2 ≠ 0) ∧
    find_n_medoids_checked tree1 (leaves tree1).length { excluded := ["a"] } =
      .error .invalidConfiguration ∧
    coverRunChecked tree1 { excluded := ["a"] } =
      .error .invalidConfiguration := by
  refine ⟨?_, ?_, ?_⟩
  · with_unfolding_all decide
  · with_unfolding_all rfl
  · with_unfolding_all rfl

/-! ### The coloring pass of `parnas.py` (`color_by_clusters`)

The pass runs after `annotate_with_closest_centers` has stored, on each
node, an optional integer `center` annotation (the index of the nearest
representative; negative when the nearest representative is a prior
center).  We model a node by that annotation, an edge by its optional head
and tail nodes, and the generated palette by an abstract list of color
strings of the length the source constructs (`len(centers)` cluster colors,
plus one reserved color first when prior centers exist). -/

/-- C7: `color_by_clusters` assigns a cluster color to an edge if and only
if the edge's head and tail nodes both exist and carry equal, non-`None`
`center` annotations; when the shared value is negative the reserved
prior-center color is used, otherwise the color at index equal to the
annotation value. -/
theorem c7_edge_color_iff (pc : Option String) (hx : List String) (e : DEdge)
    (c : String) :
    edgeColorStep pc hx e = .ok (some c) ↔
      ∃ h t v, e.head = some h ∧ e.tail = some t ∧
        h.center = some v ∧ t.center = some v ∧
        ((v < 0 ∧ pc = some c) ∨ (0 ≤ v ∧ hx[v.toNat]? = some c)) := by
  obtain ⟨eh, et⟩ := e
  cases eh with
  | none => simp [edgeColorStep]
  | some h =>
    cases et with
    | none => simp [edgeColorStep]
    | some t =>
      cases hc : h.center with
      | none => simp [edgeColorStep, hc]
      | some v =>
        by_cases htc : t.center = some v
        · constructor
          · intro hok
            simp only [edgeColorStep, hc] at hok
            rw [if_pos htc] at hok
            refine ⟨h, t, v, rfl, rfl, hc, htc, ?_⟩
            by_cases hv : v < 0
            · rw [if_pos hv] at hok
              cases hpc : pc with
              | none => simp [hpc] at hok
              | some c' =>
                  simp only [hpc, Except.ok.injEq, Option.some.injEq] at hok
                  exact Or.inl ⟨hv, by rw [hok]⟩
            · rw [if_neg hv] at hok
              cases hg : hx[v.toNat]? with
              | none => simp [hg] at hok
              | some c' =>
                  simp only [hg, Except.ok.injEq, Option.some.injEq] at hok
                  exact Or.inr ⟨by omega, by rw [hok]⟩
          · rintro ⟨h', t', v', hh, ht', hc', htc', hcase⟩
            cases hh
            cases ht'
            rw [hc] at hc'
            cases hc'
            simp only [edgeColorStep, hc]
            rw [if_pos htc]
            rcases hcase with ⟨hv, hpc⟩ | ⟨hv, hg⟩
            · rw [if_pos hv, hpc]
            · rw [if_neg (by omega), hg]
        · constructor
          · intro hok
            simp only [edgeColorStep, hc] at hok
            rw [if_neg htc] at hok
            exact absurd hok (by simp)
          · rintro ⟨h', t', v', hh, ht', hc', htc', hcase⟩
            cases hh
            cases ht'
            rw [hc] at hc'
            cases hc'
            exact absurd htc' htc

/-- Per-edge half of C9: under the annotation precondition and with the
palette the source builds, one edge never faults. -/
lemma edgeColorStep_no_fault (allColors centers priors : List String)
    (e : DEdge)
    (hlen : allColors.length = centers.length + (if priors.isEmpty then 0 else 1))
    (hpre : ∀ nd : ENode, (e.head = some nd ∨ e.tail = some nd) →
      ∀ v : Int, nd.center = some v →
        (v < 0 → priors.isEmpty = false) ∧
        (0 ≤ v → v.toNat < centers.length)) :
    ∃ c, edgeColorStep (priorColorOf allColors priors)
      (clusterColorsOf allColors priors) e = .ok c := by
  obtain ⟨eh, et⟩ := e
  cases eh with
  | none => exact ⟨none, by simp [edgeColorStep]⟩
  | some h =>
    cases et with
    | none => exact ⟨none, by simp [edgeColorStep]⟩
    | some t =>
      cases hc : h.center with
      | none => exact ⟨none, by simp [edgeColorStep, hc]⟩
      | some v =>
        by_cases htc : t.center = some v
        · obtain ⟨hneg, hnonneg⟩ := hpre h (Or.inl rfl) v hc
          by_cases hv : v < 0
          · have hpe : priors.isEmpty = false := hneg hv
            have hpos : 0 < allColors.length := by
              simp only [hpe, Bool.false_eq_true, if_false] at hlen
              omega
            obtain ⟨c₀, hc₀⟩ : ∃ c₀, allColors.head? = some c₀ := by
              cases allColors with
              | nil => simp at hpos
              | cons a l => exact ⟨a, rfl⟩
            refine ⟨some c₀, ?_⟩
            simp [edgeColorStep, hc, htc, hv, priorColorOf, hpe, hc₀]
          · have hbound : v.toNat < centers.length := hnonneg (by omega)
            have hxlen : (clusterColorsOf allColors priors).length =
                centers.length := by
              unfold clusterColorsOf
              by_cases hpe : priors.isEmpty <;> simp [hpe] at hlen ⊢ <;> omega
            obtain ⟨c, hc'⟩ : ∃ c,
                (clusterColorsOf allColors priors)[v.toNat]? = some c := by
              rw [List.getElem?_eq_getElem (by omega)]
              exact ⟨_, rfl⟩
            refine ⟨some c, ?_⟩
            simp [edgeColorStep, hc, htc, hv, hc']
        · exact ⟨none, by simp [edgeColorStep, hc, htc]⟩

/-- With every needed palette index in range, the centers loop can fail only
through `get_taxon`, never through the palette access. -/
lemma centersPassAux_no_indexError (hx : List String) :
    ∀ (cs : List String) (i : Nat) (s : AnnState),
      (∀ j, j < cs.length → i + j < hx.length) →
      centersPassAux hx i cs s ≠ .error .indexError := by
  intro cs
  induction cs with
  | nil =>
      intro i s _
      simp [centersPassAux]
  | cons c rest ih =>
      intro i s hbound
      have hi : i < hx.length := by
        have := hbound 0 (by simp)
        omega
      obtain ⟨col, hcol⟩ : ∃ col, hx[i]? = some col := by
        rw [List.getElem?_eq_getElem hi]
        exact ⟨_, rfl⟩
      cases ha : annOf s c with
      | none => simp [centersPassAux, hcol, ha]
      | some a =>
          simp only [centersPassAux, hcol, ha]
          exact ih (i + 1) (addColorFirst s c col) fun j hj => by
            have := hbound (j + 1) (by simp; omega)
            omega

/-- With `prior_color` bound, the prior-centers loop never reaches its
unbound-`prior_color` branch. -/
lemma priorsPassAux_no_unbound (col : String) :
    ∀ (ps : List String) (s : AnnState),
      priorsPassAux (some col) ps s ≠ .error .unboundPrior := by
  intro ps
  induction ps with
  | nil =>
      intro s
      simp [priorsPassAux]
  | cons p rest ih =>
      intro s
      cases ha : annOf s p with
      | none => simp [priorsPassAux, ha]
      | some a =>
          simp only [priorsPassAux, ha]
          exact ih (addColorFirst s p col)

/-- C9: under the precondition that every negative `center` annotation occurs
only when prior centers exist and every nonnegative `center` annotation is
strictly below `len(centers)`, and with the palette length the source
constructs, `color_by_clusters` cannot fault through a palette access or
through `prior_color`: the edge loop succeeds on every edge, the centers
loop never raises `IndexError`, `prior_color` is bound whenever prior
centers exist, and the prior-centers loop never uses it unbound. -/
theorem c9_edge_pass_no_fault (allColors centers priors : List String)
    (es : List DEdge)
    (hlen : allColors.length = centers.length + (if priors.isEmpty then 0 else 1))
    (hpre : ∀ e ∈ es, ∀ nd : ENode, (e.head = some nd ∨ e.tail = some nd) →
      ∀ v : Int, nd.center = some v →
        (v < 0 → priors.isEmpty = false) ∧
        (0 ≤ v → v.toNat < centers.length)) :
    (∃ out, color_by_clusters_edges allColors priors es = .ok out) ∧
    (∀ s : AnnState, centersPassAux (clusterColorsOf allColors priors) 0
      centers s ≠ .error .indexError) ∧
    (priors.isEmpty = false → ∃ c, priorColorOf allColors priors = some c) ∧
    (∀ s : AnnState, priorsPassAux (priorColorOf allColors priors) priors s ≠
      .error .unboundPrior) := by
  have hhxlen : (clusterColorsOf allColors priors).length = centers.length := by
    unfold clusterColorsOf
    by_cases hpe : priors.isEmpty <;> simp [hpe] at hlen ⊢ <;> omega
  have hedges : ∃ out, color_by_clusters_edges allColors priors es = .ok out := by
    unfold color_by_clusters_edges
    induction es with
    | nil => exact ⟨[], rfl⟩
    | cons e rest ih =>
        obtain ⟨c, hc⟩ := edgeColorStep_no_fault allColors centers priors e hlen
          (hpre e (List.mem_cons_self e rest))
        obtain ⟨out, hout⟩ := ih fun e' he' => hpre e' (List.mem_cons_of_mem e he')
        exact ⟨c :: out, by simp only [colorEdgeList, hc, hout]⟩
  refine ⟨hedges, ?_, ?_, ?_⟩
  · intro s
    exact centersPassAux_no_indexError (clusterColorsOf allColors priors)
      centers 0 s fun j hj => by rw [hhxlen]; omega
  · intro hpe
    obtain ⟨c₀, hc₀⟩ : ∃ c₀, allColors.head? = some c₀ := by
      cases allColors with
      | nil =>
          exfalso
          simp only [hpe, List.length_nil, Bool.false_eq_true, if_false] at hlen
          omega
      | cons a l => exact ⟨a, rfl⟩
    exact ⟨c₀, by simp [priorColorOf, hpe, hc₀]⟩
  · intro s
    cases hpb : priors.isEmpty
    · obtain ⟨c₀, hc₀⟩ : ∃ c₀, allColors.head? = some c₀ := by
        cases allColors with
        | nil =>
            exfalso
            simp only [hpb, List.length_nil, Bool.false_eq_true, if_false] at hlen
            omega
        | cons a l => exact ⟨a, rfl⟩
      have hpc : priorColorOf allColors priors = some c₀ := by
        simp [priorColorOf, hpb, hc₀]
      rw [hpc]
      exact priorsPassAux_no_unbound c₀ priors s
    · have hpnil : priors = [] := by
        cases priors with
        | nil => rfl
        | cons q qs => simp at hpb
      subst hpnil
      simp [priorsPassAux]

/-- Witness for C9: a concrete annotated two-edge tree fragment with one
prior-center cluster (center `-1`) and one regular cluster (center `0`),
palette of two colors for one center and one prior. -/
theorem c9_edge_pass_no_fault_witness :
    (∃ out, color_by_clusters_edges ["#b2395b", "#39b28f"] ["p"]
      [⟨some ⟨some (-1)⟩, some ⟨some (-1)⟩⟩, ⟨some ⟨some 0⟩, some ⟨some 0⟩⟩] =
      .ok out) ∧
    (∀ s : AnnState, centersPassAux (clusterColorsOf ["#b2395b", "#39b28f"] ["p"]) 0
      ["x"] s ≠ .error .indexError) ∧
    ((["p"] : List String).isEmpty = false →
      ∃ c, priorColorOf ["#b2395b", "#39b28f"] ["p"] = some c) ∧
    (∀ s : AnnState, priorsPassAux (priorColorOf ["#b2395b", "#39b28f"] ["p"])
      ["p"] s ≠ .error .unboundPrior) :=
  c9_edge_pass_no_fault ["#b2395b", "#39b28f"] ["x"] ["p"]
    [⟨some ⟨some (-1)⟩, some ⟨some (-1)⟩⟩, ⟨some ⟨some 0⟩, some ⟨some 0⟩⟩]
    (by decide)
    (by
      intro e he nd hnd v hv
      rcases List.mem_cons.mp he with rfl | he
      · have hnd' : nd = ⟨some (-1)⟩ := by
          rcases hnd with h | h <;> exact (Option.some.inj h).symm
        subst hnd'
        have hv' : v = -1 := by
          have h2 := Option.some.inj hv
          omega
        subst hv'
        decide
      rcases List.mem_cons.mp he with rfl | he
      · have hnd' : nd = ⟨some 0⟩ := by
          rcases hnd with h | h <;> exact (Option.some.inj h).symm
        subst hnd'
        have hv' : v = 0 := by
          have h2 := Option.some.inj hv
          omega
        subst hv'
        decide
      exact absurd he (List.not_mem_nil e))

/-! ### The taxon-coloring half of `color_by_clusters` (parnas.py:49-70) -/

lemma addColorFirst_labels (x c : String) :
    ∀ s : AnnState, (addColorFirst s x c).map Prod.fst = s.map Prod.fst := by
  intro s
  induction s with
  | nil => rfl
  | cons p rest ih =>
      by_cases hp : p.1 = x
      · simp [addColorFirst, hp]
      · simp [addColorFirst, hp, ih]

lemma annOf_addColorFirst_self (x c : String) :
    ∀ s : AnnState, annOf (addColorFirst s x c) x =
      (annOf s x).map fun a => a ++ [c] := by
  intro s
  induction s with
  | nil => rfl
  | cons p rest ih =>
      by_cases hp : p.1 = x
      · simp [addColorFirst, annOf, hp]
      · simp [addColorFirst, annOf, hp, ih]

lemma annOf_addColorFirst_other {x y : String} (c : String) (hxy : y ≠ x) :
    ∀ s : AnnState, annOf (addColorFirst s x c) y = annOf s y := by
  intro s
  induction s with
  | nil => rfl
  | cons p rest ih =>
      by_cases hp : p.1 = x
      · have hpy : ¬ p.1 = y := by rw [hp]; exact fun h => hxy h.symm
        have hxy' : ¬ x = y := fun h => hxy h.symm
        simp [addColorFirst, annOf, hp, hpy, hxy']
      · by_cases hpy : p.1 = y
        · simp [addColorFirst, annOf, hp, hpy, hxy]
        · simp [addColorFirst, annOf, hp, hpy, ih]

lemma blackPass_labels (special : List String) (s : AnnState) :
    (blackPass special s).map Prod.fst = s.map Prod.fst := by
  induction s with
  | nil => rfl
  | cons p rest ih => simp [blackPass]

lemma annOf_blackPass (special : List String) (x : String) :
    ∀ s : AnnState, annOf (blackPass special s) x =
      (annOf s x).map fun _ => if x ∈ special then [] else [blackHex] := by
  intro s
  induction s with
  | nil => rfl
  | cons p rest ih =>
      by_cases hp : p.1 = x
      · subst hp
        simp [blackPass, annOf]
      · simp [blackPass, annOf, hp] at ih ⊢
        exact ih

lemma annOf_isSome_of_mem_labels {s : AnnState} {x : String}
    (h : x ∈ s.map Prod.fst) : ∃ a, annOf s x = some a := by
  induction s with
  | nil => simp at h
  | cons p rest ih =>
      by_cases hp : p.1 = x
      · exact ⟨p.2, by simp [annOf, hp]⟩
      · simp only [List.map_cons, List.mem_cons] at h
        rcases h with h | h
        · exact absurd h.symm hp
        · simp only [annOf, if_neg hp]
          exact ih h

lemma annOf_of_mem {s : AnnState} {p : String × List String}
    (hnd : (s.map Prod.fst).Nodup) (hp : p ∈ s) : annOf s p.1 = some p.2 := by
  induction s with
  | nil => simp at hp
  | cons q rest ih =>
      rcases List.mem_cons.mp hp with rfl | hmem
      · simp [annOf]
      · have hq : ¬ q.1 = p.1 := by
          intro he
          have : p.1 ∈ rest.map Prod.fst := List.mem_map_of_mem Prod.fst hmem
          rw [← he] at this
          exact (List.nodup_cons.mp hnd).1 this
        simp only [annOf, if_neg hq]
        exact ih (List.nodup_cons.mp hnd).2 hmem

lemma mem_labels_of_mem {s : AnnState} {p : String × List String}
    (hp : p ∈ s) : p.1 ∈ s.map Prod.fst :=
  List.mem_map_of_mem Prod.fst hp

/-- Complete characterization of the centers loop when every center names an
existing taxon and every needed palette index is in range: it succeeds,
preserves the namespace, leaves non-center taxa alone, and (for duplicate-free
centers) appends the matching cluster color to each center's annotations. -/
lemma centersPassAux_spec (hx : List String) :
    ∀ (cs : List String) (i : Nat) (s : AnnState),
      (∀ c ∈ cs, c ∈ s.map Prod.fst) →
      (∀ j, j < cs.length → i + j < hx.length) →
      ∃ s', centersPassAux hx i cs s = .ok s' ∧
        s'.map Prod.fst = s.map Prod.fst ∧
        (∀ x, x ∉ cs → annOf s' x = annOf s x) ∧
        (cs.Nodup → ∀ j x col, cs[j]? = some x → hx[i + j]? = some col →
          annOf s' x = (annOf s x).map fun a => a ++ [col]) := by
  intro cs
  induction cs with
  | nil =>
      intro i s _ _
      exact ⟨s, rfl, rfl, fun x _ => rfl, fun _ j x col hj _ => by simp at hj⟩
  | cons c rest ih =>
      intro i s hmem hbound
      have hi : i < hx.length := by
        have := hbound 0 (by simp)
        omega
      obtain ⟨col₀, hcol₀⟩ : ∃ col₀, hx[i]? = some col₀ := by
        rw [List.getElem?_eq_getElem hi]
        exact ⟨_, rfl⟩
      obtain ⟨a₀, ha₀⟩ :=
        annOf_isSome_of_mem_labels (hmem c (List.mem_cons_self c rest))
      obtain ⟨s', hrun, hlab, hother, hnodup⟩ :=
        ih (i + 1) (addColorFirst s c col₀)
          (fun c' hc' => by
            rw [addColorFirst_labels]
            exact hmem c' (List.mem_cons_of_mem c hc'))
          (fun j hj => by
            have h2 := hbound (j + 1) (by simp; omega)
            omega)
      refine ⟨s', ?_, ?_, ?_, ?_⟩
      · simp only [centersPassAux, hcol₀, ha₀]
        exact hrun
      · rw [hlab, addColorFirst_labels]
      · intro x hxmem
        have hxc : x ≠ c := fun h => hxmem (h ▸ List.mem_cons_self c rest)
        have hxrest : x ∉ rest := fun h => hxmem (List.mem_cons_of_mem c h)
        rw [hother x hxrest, annOf_addColorFirst_other col₀ hxc]
      · intro hnd j x col hj hcol
        rcases j with _ | j
        · have hxc : c = x := by simpa using hj
          subst hxc
          have hcolc : col = col₀ := by
            have h3 : hx[i]? = some col := by
              have h4 : i + 0 = i := by omega
              rw [h4] at hcol
              exact hcol
            exact (Option.some.inj (hcol₀.symm.trans h3)).symm
          subst hcolc
          have hcc : c ∉ rest := (List.nodup_cons.mp hnd).1
          rw [hother c hcc, annOf_addColorFirst_self]
        · simp only [List.getElem?_cons_succ] at hj
          have hxrest : x ∈ rest := List.getElem?_mem hj
          have hxc : x ≠ c := fun h =>
            (List.nodup_cons.mp hnd).1 (h ▸ hxrest)
          have harith : i + (j + 1) = (i + 1) + j := by omega
          rw [harith] at hcol
          rw [hnodup (List.nodup_cons.mp hnd).2 j x col hj hcol,
            annOf_addColorFirst_other col₀ hxc]

/-- Complete characterization of the prior-centers loop with a bound
`prior_color`: it succeeds when every prior names an existing taxon,
preserves the namespace, leaves non-prior taxa alone, and (for
duplicate-free priors) appends the reserved color to each prior's
annotations. -/
lemma priorsPassAux_spec (col : String) :
    ∀ (ps : List String) (s : AnnState),
      (∀ p ∈ ps, p ∈ s.map Prod.fst) →
      ∃ s', priorsPassAux (some col) ps s = .ok s' ∧
        s'.map Prod.fst = s.map Prod.fst ∧
        (∀ x, x ∉ ps → annOf s' x = annOf s x) ∧
        (ps.Nodup → ∀ x ∈ ps, annOf s' x = (annOf s x).map fun a => a ++ [col]) := by
  intro ps
  induction ps with
  | nil =>
      intro s _
      exact ⟨s, rfl, rfl, fun _ _ => rfl, fun _ x hx => by simp at hx⟩
  | cons p rest ih =>
      intro s hmem
      obtain ⟨a₀, ha₀⟩ :=
        annOf_isSome_of_mem_labels (hmem p (List.mem_cons_self p rest))
      obtain ⟨s', hrun, hlab, hother, hnodup⟩ :=
        ih (addColorFirst s p col)
          (fun p' hp' => by
            rw [addColorFirst_labels]
            exact hmem p' (List.mem_cons_of_mem p hp'))
      refine ⟨s', ?_, ?_, ?_, ?_⟩
      · simp only [priorsPassAux, ha₀]
        exact hrun
      · rw [hlab, addColorFirst_labels]
      · intro x hxmem
        have hxp : x ≠ p := fun h => hxmem (h ▸ List.mem_cons_self p rest)
        have hxrest : x ∉ rest := fun h => hxmem (List.mem_cons_of_mem p h)
        rw [hother x hxrest, annOf_addColorFirst_other col hxp]
      · intro hnd x hxmem
        rcases List.mem_cons.mp hxmem with rfl | hxrest
        · have hpp : x ∉ rest := (List.nodup_cons.mp hnd).1
          rw [hother x hpp, annOf_addColorFirst_self]
        · have hxp : x ≠ p := fun h =>
            (List.nodup_cons.mp hnd).1 (h ▸ hxrest)
          rw [hnodup (List.nodup_cons.mp hnd).2 x hxrest,
            annOf_addColorFirst_other col hxp]

/-- Every namespace entry ends with a single annotation once the final state
is black for plain taxa, the indexed cluster color for centers, and some
single color for priors. -/
lemma taxa_length_one {s s' : AnnState} {centers priors hxl : List String}
    (hnd : (s.map Prod.fst).Nodup)
    (hlab : s'.map Prod.fst = s.map Prod.fst)
    (hblack : ∀ x ∈ s.map Prod.fst, x ∉ centers → x ∉ priors →
      annOf s' x = some [blackHex])
    (hcent : ∀ (i : Nat) (x : String), centers[i]? = some x →
      annOf s' x = (hxl[i]?).map fun c => [c])
    (hpri : ∀ x ∈ priors, ∃ c, annOf s' x = some [c])
    (hhx : centers.length ≤ hxl.length) :
    ∀ p ∈ s', p.2.length = 1 := by
  intro p hp
  have hndfin : (s'.map Prod.fst).Nodup := by rw [hlab]; exact hnd
  have hpx := annOf_of_mem hndfin hp
  have hxs : p.1 ∈ s.map Prod.fst := by rw [← hlab]; exact mem_labels_of_mem hp
  by_cases hxc : p.1 ∈ centers
  · obtain ⟨i, hi, hie⟩ := List.mem_iff_getElem.mp hxc
    have hgi : centers[i]? = some p.1 := by rw [List.getElem?_eq_getElem hi, hie]
    have hcc := hcent i p.1 hgi
    obtain ⟨col, hcol⟩ : ∃ col, hxl[i]? = some col := by
      rw [List.getElem?_eq_getElem (by omega)]
      exact ⟨_, rfl⟩
    rw [hcol, hpx] at hcc
    simp only [Option.map_some'] at hcc
    simp [Option.some.inj hcc]
  · by_cases hxp : p.1 ∈ priors
    · obtain ⟨c, hc⟩ := hpri p.1 hxp
      rw [hpx] at hc
      simp [Option.some.inj hc]
    · have hb := hblack p.1 hxs hxc hxp
      rw [hpx] at hb
      simp [Option.some.inj hb]

/-- C10 (amended): provided the centers list and the prior-center list are
each duplicate-free, no center is also a prior center, every listed label
names an existing taxon, taxon labels are unique, and the palette has the
length the source constructs, the taxon pass of `color_by_clusters` returns
normally and afterwards every taxon carries exactly one `!color` annotation
(all pre-existing ones dropped): taxa in neither list are black `#000000`,
each `centers[i]` carries the `i`-th cluster color, and, when prior centers
exist, every prior center carries the single reserved prior-center color. -/
theorem c10_taxa_coloring_amended (allColors centers priors : List String)
    (s : AnnState)
    (hlen : allColors.length = centers.length + (if priors.isEmpty then 0 else 1))
    (hnd : (s.map Prod.fst).Nodup)
    (hcnd : centers.Nodup) (hpnd : priors.Nodup)
    (hdisj : ∀ x ∈ centers, x ∉ priors)
    (hcs : ∀ x ∈ centers, x ∈ s.map Prod.fst)
    (hps : ∀ x ∈ priors, x ∈ s.map Prod.fst) :
    ∃ s', color_by_clusters_taxa allColors centers priors s = .ok s' ∧
      s'.map Prod.fst = s.map Prod.fst ∧
      (∀ p ∈ s', p.2.length = 1) ∧
      (∀ x ∈ s.map Prod.fst, x ∉ centers → x ∉ priors →
        annOf s' x = some [blackHex]) ∧
      (∀ (i : Nat) (x : String), centers[i]? = some x →
        annOf s' x = ((clusterColorsOf allColors priors)[i]?).map fun c => [c]) ∧
      (priors.isEmpty = false → ∀ x ∈ priors,
        annOf s' x = (priorColorOf allColors priors).map fun c => [c]) := by
  have hhxlen : (clusterColorsOf allColors priors).length = centers.length := by
    unfold clusterColorsOf
    by_cases hpe : priors.isEmpty <;> simp [hpe] at hlen ⊢ <;> omega
  obtain ⟨s2, hrun2, hlab2, hother2, hcent2⟩ :=
    centersPassAux_spec (clusterColorsOf allColors priors) centers 0
      (blackPass (specialTaxa centers priors) s)
      (fun c hc => by rw [blackPass_labels]; exact hcs c hc)
      (fun j hj => by rw [hhxlen]; omega)
  have hlab2s : s2.map Prod.fst = s.map Prod.fst := by
    rw [hlab2, blackPass_labels]
  have hann1 : ∀ x ∈ s.map Prod.fst,
      annOf (blackPass (specialTaxa centers priors) s) x =
        some (if x ∈ specialTaxa centers priors then [] else [blackHex]) := by
    intro x hx
    obtain ⟨a, ha⟩ := annOf_isSome_of_mem_labels hx
    rw [annOf_blackPass, ha]
    rfl
  have hcentfact : ∀ (i : Nat) (x : String), centers[i]? = some x →
      annOf s2 x = ((clusterColorsOf allColors priors)[i]?).map fun c => [c] := by
    intro i x hgi
    have hixlt : i < centers.length := (List.getElem?_eq_some.mp hgi).1
    obtain ⟨col, hcol⟩ : ∃ col,
        (clusterColorsOf allColors priors)[i]? = some col := by
      rw [List.getElem?_eq_getElem (by omega)]
      exact ⟨_, rfl⟩
    have hxc : x ∈ centers := List.getElem?_mem hgi
    have hxspec : x ∈ specialTaxa centers priors := by
      unfold specialTaxa
      by_cases hpe : priors.isEmpty <;> simp [hpe, hxc]
    have h1 := hcent2 hcnd i x col hgi (by rw [Nat.zero_add]; exact hcol)
    rw [hann1 x (hcs x hxc)] at h1
    rw [h1, hcol]
    simp [hxspec]
  by_cases hpe : priors.isEmpty
  · have hpnil : priors = [] := by
      cases priors with
      | nil => rfl
      | cons q qs => simp at hpe
    subst hpnil
    have hblackfact : ∀ x ∈ s.map Prod.fst, x ∉ centers → x ∉ ([] : List String) →
        annOf s2 x = some [blackHex] := by
      intro x hx hxc _
      rw [hother2 x hxc, hann1 x hx]
      have hxs : x ∉ specialTaxa centers [] := by
        simpa [specialTaxa] using hxc
      simp [hxs]
    refine ⟨s2, ?_, hlab2s, ?_, hblackfact, hcentfact, ?_⟩
    · simp [color_by_clusters_taxa, hrun2]
    · exact taxa_length_one hnd hlab2s hblackfact hcentfact
        (fun x hx => absurd hx (List.not_mem_nil x)) (by omega)
    · intro hfalse
      simp at hfalse
  · have hpe' : priors.isEmpty = false := by
      cases h : priors.isEmpty
      · rfl
      · exact absurd h hpe
    obtain ⟨c₀, hc₀⟩ : ∃ c₀, allColors.head? = some c₀ := by
      cases allColors with
      | nil =>
          exfalso
          simp only [hpe', List.length_nil, Bool.false_eq_true, if_false] at hlen
          omega
      | cons a l => exact ⟨a, rfl⟩
    have hpc : priorColorOf allColors priors = some c₀ := by
      simp [priorColorOf, hpe', hc₀]
    obtain ⟨s3, hrun3, hlab3, hother3, hprio3⟩ :=
      priorsPassAux_spec c₀ priors s2
        (fun q hq => by rw [hlab2s]; exact hps q hq)
    have hlabfin : s3.map Prod.fst = s.map Prod.fst := by rw [hlab3, hlab2s]
    have hcentfin : ∀ (i : Nat) (x : String), centers[i]? = some x →
        annOf s3 x = ((clusterColorsOf allColors priors)[i]?).map fun c => [c] := by
      intro i x hgi
      have hxc : x ∈ centers := List.getElem?_mem hgi
      rw [hother3 x (hdisj x hxc), hcentfact i x hgi]
    have hprifact : ∀ x ∈ priors, annOf s3 x = some [c₀] := by
      intro x hxp
      have hxnc : x ∉ centers := fun hc => hdisj x hc hxp
      have hxspec : x ∈ specialTaxa centers priors := by
        unfold specialTaxa
        simp [hpe', hxp]
      rw [hprio3 hpnd x hxp, hother2 x hxnc, hann1 x (hps x hxp)]
      simp [hxspec]
    have hblackfin : ∀ x ∈ s.map Prod.fst, x ∉ centers → x ∉ priors →
        annOf s3 x = some [blackHex] := by
      intro x hx hxc hxp
      have hxs : x ∉ specialTaxa centers priors := by
        unfold specialTaxa
        simp [hpe', hxc, hxp]
      rw [hother3 x hxp, hother2 x hxc, hann1 x hx]
      simp [hxs]
    refine ⟨s3, ?_, hlabfin, ?_, hblackfin, hcentfin,
      fun _ x hxp => by rw [hprifact x hxp, hpc]; rfl⟩
    · simp [color_by_clusters_taxa, hrun2, hpe', hpc, hrun3]
    · exact taxa_length_one hnd hlabfin hblackfin hcentfin
        (fun x hxp => ⟨c₀, hprifact x hxp⟩) (by omega)

/-- Witness for C10 (amended) at a concrete input: one center `x`, one prior
`p`, a third plain taxon `y`, a palette of two colors; the pass returns, the
namespace is preserved, every taxon ends with exactly one color, `y` is
black, `x` carries the cluster color and `p` the reserved color. -/
theorem c10_taxa_coloring_amended_witness :
    ∃ s', color_by_clusters_taxa ["#r0", "#r1"] ["x"] ["p"]
        [("x", ["#z"]), ("p", []), ("y", [])] = .ok s' ∧
      s'.map Prod.fst =
        ([("x", ["#z"]), ("p", []), ("y", [])] : AnnState).map Prod.fst ∧
      (∀ q ∈ s', q.2.length = 1) ∧
      (∀ x ∈ ([("x", ["#z"]), ("p", []), ("y", [])] : AnnState).map Prod.fst,
        x ∉ ["x"] → x ∉ ["p"] → annOf s' x = some [blackHex]) ∧
      (∀ (i : Nat) (x : String), (["x"] : List String)[i]? = some x →
        annOf s' x = ((clusterColorsOf ["#r0", "#r1"] ["p"])[i]?).map fun c => [c]) ∧
      ((["p"] : List String).isEmpty = false → ∀ x ∈ (["p"] : List String),
        annOf s' x = (priorColorOf ["#r0", "#r1"] ["p"]).map fun c => [c]) :=
  c10_taxa_coloring_amended ["#r0", "#r1"] ["x"] ["p"]
    [("x", ["#z"]), ("p", []), ("y", [])]
    (by decide) (by decide) (by decide) (by decide) (by decide) (by decide)
    (by decide)

/-- C10 counterexample: when a taxon is both a center and a prior center
(`centers = priors = ["a"]`), the taxon pass returns normally but that taxon
ends with TWO `!color` annotations (its cluster color, then the reserved
prior color), refuting the claim that after `color_by_clusters` returns,
every taxon carries exactly one `!color` annotation. -/
theorem c10_two_colors_counterexample :
    color_by_clusters_taxa ["#a05555", "#55a055"] ["a"] ["a"]
        [("a", ["#old"]), ("b", [])] =
      .ok [("a", ["#55a055", "#a05555"]), ("b", ["#000000"])] ∧
    (["#55a055", "#a05555"] : List String).length ≠ 1 := by
  constructor
  · rfl
  · decide

end Parnas
